import Mathlib

/-!
Verification of the andamio-core hashing utilities: a shallow embedding of
the commitment, SLT and task hash pipelines (canonicalizer, Plutus-compatible
CBOR encoder, Blake2b-256 digest, hex output and verification helpers),
together with theorems checking the documented behaviour of each component.

Bytes are modelled as natural numbers below 256, byte sequences as lists of
naturals, and code that can throw is modelled with Option (none = the
exception path).
-/

set_option maxRecDepth 1000000

/-! ## Blake2b-256 (the trusted digest primitive used via the blakejs library) -/

/-- The 64-bit word modulus used by Blake2b arithmetic. -/
def M64 : Nat := 18446744073709551616

/-- Rotate a 64-bit word right by r bits. -/
def ror64 (r : Nat) (x : Nat) : Nat :=
  (x % 2 ^ r) * 2 ^ (64 - r) + x / 2 ^ r

/-- Addition of 64-bit words modulo 2^64. -/
def add64 (a b : Nat) : Nat := (a + b) % M64

/-- The Blake2b initialization vector. -/
def blakeIV : List Nat :=
  [0x6a09e667f3bcc908, 0xbb67ae8584caa73b, 0x3c6ef372fe94f82b, 0xa54ff53a5f1d36f1,
   0x510e527fade682d1, 0x9b05688c2b3e6c1f, 0x1f83d9abfb41bd6b, 0x5be0cd19137e2179]

/-- The Blake2b message schedule (rounds 10 and 11 reuse rows 0 and 1). -/
def blakeSigma : List (List Nat) :=
  [[0, 1, 2, 3, 4, 5, 6, 7, 8, 9, 10, 11, 12, 13, 14, 15],
   [14, 10, 4, 8, 9, 15, 13, 6, 1, 12, 0, 2, 11, 7, 5, 3],
   [11, 8, 12, 0, 5, 2, 15, 13, 10, 14, 3, 6, 7, 1, 9, 4],
   [7, 9, 3, 1, 13, 12, 11, 14, 2, 6, 5, 10, 4, 0, 15, 8],
   [9, 0, 5, 7, 2, 4, 10, 15, 14, 1, 11, 12, 6, 8, 3, 13],
   [2, 12, 6, 10, 0, 11, 8, 3, 4, 13, 7, 5, 15, 14, 1, 9],
   [12, 5, 1, 15, 14, 13, 4, 10, 0, 7, 6, 3, 9, 2, 8, 11],
   [13, 11, 7, 14, 12, 1, 3, 9, 5, 0, 15, 4, 8, 6, 2, 10],
   [6, 15, 14, 9, 11, 3, 0, 8, 12, 2, 13, 7, 1, 4, 10, 5],
   [10, 2, 8, 4, 7, 6, 1, 5, 15, 11, 9, 14, 3, 12, 13, 0],
   [0, 1, 2, 3, 4, 5, 6, 7, 8, 9, 10, 11, 12, 13, 14, 15],
   [14, 10, 4, 8, 9, 15, 13, 6, 1, 12, 0, 2, 11, 7, 5, 3]]

/-- The Blake2b G mixing function on working-state positions a b c d. -/
def gMix (v : List Nat) (a b c d : Nat) (x y : Nat) : List Nat :=
  let va := add64 (add64 (v.getD a 0) (v.getD b 0)) x
  let vd := ror64 32 ((v.getD d 0) ^^^ va)
  let vc := add64 (v.getD c 0) vd
  let vb := ror64 24 ((v.getD b 0) ^^^ vc)
  let va2 := add64 (add64 va vb) y
  let vd2 := ror64 16 (vd ^^^ va2)
  let vc2 := add64 vc vd2
  let vb2 := ror64 63 (vb ^^^ vc2)
  ((((v.set a va2).set b vb2).set c vc2).set d vd2)

/-- One Blake2b round over the 16-word working state v with message words m
and sigma row s. -/
def blakeRound (m : List Nat) (v : List Nat) (s : List Nat) : List Nat :=
  let mi := fun i => m.getD (s.getD i 0) 0
  let v := gMix v 0 4 8 12 (mi 0) (mi 1)
  let v := gMix v 1 5 9 13 (mi 2) (mi 3)
  let v := gMix v 2 6 10 14 (mi 4) (mi 5)
  let v := gMix v 3 7 11 15 (mi 6) (mi 7)
  let v := gMix v 0 5 10 15 (mi 8) (mi 9)
  let v := gMix v 1 6 11 12 (mi 10) (mi 11)
  let v := gMix v 2 7 8 13 (mi 12) (mi 13)
  let v := gMix v 3 4 9 14 (mi 14) (mi 15)
  v

/-- Split a byte list into consecutive slices of n bytes, with explicit fuel
so that the recursion is structural (the kernel can evaluate it). -/
def sliceFuel (n : Nat) : Nat → List Nat → List (List Nat)
  | 0, l => [l]
  | fuel + 1, l => if l.length ≤ n then [l] else l.take n :: sliceFuel n fuel (l.drop n)

/-- Split a byte list into consecutive slices of n bytes (the final slice may
be shorter); the empty list yields one empty slice. -/
def sliceBytes (n : Nat) (l : List Nat) : List (List Nat) :=
  sliceFuel n l.length l

/-- Interpret a list of bytes as a little-endian natural number. -/
def leNat (l : List Nat) : Nat := l.foldr (fun b acc => b % 256 + 256 * acc) 0

/-- The 16 little-endian 64-bit message words of a 128-byte block. -/
def blockWords (b : List Nat) : List Nat := (sliceBytes 8 b).map leNat

/-- The Blake2b compression function F. -/
def blakeF (h : List Nat) (m : List Nat) (t : Nat) (last : Bool) : List Nat :=
  let v := h ++ blakeIV
  let v := v.set 12 ((v.getD 12 0) ^^^ (t % M64))
  let v := v.set 13 ((v.getD 13 0) ^^^ (t / M64))
  let v := if last then v.set 14 ((v.getD 14 0) ^^^ (M64 - 1)) else v
  let v := blakeSigma.foldl (blakeRound m) v
  (List.range 8).map (fun i => (h.getD i 0) ^^^ (v.getD i 0) ^^^ (v.getD (i + 8) 0))

/-- Fold the compression function over the 128-byte blocks; t counts the bytes
consumed so far and ll is the total unpadded message length. -/
def blakeBlocks (h : List Nat) (t : Nat) (ll : Nat) : List (List Nat) → List Nat
  | [] => h
  | [b] => blakeF h (blockWords (b ++ List.replicate (128 - b.length) 0)) ll true
  | b :: b2 :: rest =>
    blakeBlocks (blakeF h (blockWords b) (t + 128) false) (t + 128) ll (b2 :: rest)

/-- The 8 little-endian bytes of a 64-bit word. -/
def leBytes8 (n : Nat) : List Nat :=
  [n % 256, n / 2 ^ 8 % 256, n / 2 ^ 16 % 256, n / 2 ^ 24 % 256,
   n / 2 ^ 32 % 256, n / 2 ^ 40 % 256, n / 2 ^ 48 % 256, n / 2 ^ 56 % 256]

/-- Blake2b-256 (unkeyed, 32-byte digest) of a byte list, as computed by the
blakejs primitive blake2b with output length 32. -/
def blake2b256 (msg : List Nat) : List Nat :=
  let h0 := blakeIV.set 0 ((blakeIV.getD 0 0) ^^^ 0x01010020)
  let hFinal := blakeBlocks h0 0 msg.length (sliceBytes 128 msg)
  ((hFinal.map leBytes8).flatten).take 32

/-! ## Hex output, ASCII lowercasing and UTF-8 (TextEncoder) -/

/-- The lowercase hexadecimal digit for a value below 16 (as produced by the
JavaScript toString(16) padded rendering in blakejs and uint8ArrayToHex). -/
def hexDigit (n : Nat) : Char :=
  if n < 10 then Char.ofNat (48 + n) else Char.ofNat (87 + n)

/-- Render a byte list as a lowercase hexadecimal string, two digits per
byte. -/
def bytesToHex (l : List Nat) : String :=
  ⟨(l.map (fun b => [hexDigit (b / 16), hexDigit (b % 16)])).flatten⟩

/-- ASCII lowercasing of one character, as String.prototype.toLowerCase acts
on the ASCII range (the only range appearing in hex digests). -/
def lowerChar (c : Char) : Char :=
  if 65 ≤ c.toNat ∧ c.toNat ≤ 90 then Char.ofNat (c.toNat + 32) else c

/-- ASCII lowercasing of a string, as used to compare hashes
case-insensitively. -/
def jsToLower (s : String) : String := ⟨s.data.map lowerChar⟩

/-- The UTF-8 bytes of one Unicode scalar value. -/
def utf8Char (c : Char) : List Nat :=
  let n := c.toNat
  if n < 0x80 then [n]
  else if n < 0x800 then [0xc0 + n / 64, 0x80 + n % 64]
  else if n < 0x10000 then [0xe0 + n / 4096, 0x80 + n / 64 % 64, 0x80 + n % 64]
  else [0xf0 + n / 262144, 0x80 + n / 4096 % 64, 0x80 + n / 64 % 64, 0x80 + n % 64]

/-- The UTF-8 bytes of a string, as produced by TextEncoder().encode. -/
def utf8Encode (s : String) : List Nat := (s.data.map utf8Char).flatten

/-- Monadic map over Option, the translation of the source loops that push one
encoded chunk per element and propagate a thrown error. -/
def mapMO (f : α → Option β) : List α → Option (List β)
  | [] => some []
  | x :: xs =>
    match f x with
    | none => none
    | some y =>
      match mapMO f xs with
      | none => none
      | some ys => some (y :: ys)

/-! ## Plutus-compatible CBOR encoders (task-hash.ts and slt-hash.ts) -/

/-- Plutus chunk size for byte strings. -/
def PLUTUS_CHUNK_SIZE : Nat := 64

/-- Encode a byte buffer as a definite-length CBOR byte string; none models
the thrown Error for buffers longer than 65535 bytes. -/
def encodeCBORByteString (buffer : List Nat) : Option (List Nat) :=
  let len := buffer.length
  if len ≤ 23 then some ((0x40 + len) :: buffer)
  else if len ≤ 255 then some (0x58 :: len :: buffer)
  else if len ≤ 65535 then some (0x59 :: (len / 256) :: (len % 256) :: buffer)
  else none

/-- Encode a byte buffer matching the Plutus stringToBuiltinByteString
behaviour: at most 64 bytes encode as a plain byte string, longer buffers as
an indefinite-length sequence of 64-byte chunks. -/
def encodePlutusBuiltinByteString (buffer : List Nat) : Option (List Nat) :=
  if buffer.length ≤ PLUTUS_CHUNK_SIZE then encodeCBORByteString buffer
  else
    match mapMO encodeCBORByteString (sliceBytes PLUTUS_CHUNK_SIZE buffer) with
    | none => none
    | some chunks => some (0x5f :: (chunks.flatten ++ [0xff]))

/-- Encode an array of byte buffers as an indefinite-length CBOR array of
Plutus byte strings (the top-level SLT encoding). -/
def encodeAsPlutusArray (items : List (List Nat)) : Option (List Nat) :=
  match mapMO encodePlutusBuiltinByteString items with
  | none => none
  | some encoded => some (0x9f :: (encoded.flatten ++ [0xff]))

/-- Compute the module hash from a list of SLT strings. -/
def computeSltHash (slts : List String) : Option String :=
  match encodeAsPlutusArray (slts.map utf8Encode) with
  | none => none
  | some cborData => some (bytesToHex (blake2b256 cborData))

/-- Deprecated alias of computeSltHash kept for backwards compatibility. -/
def computeSltHashDefinite : List String → Option String := computeSltHash

/-- Verify that a given hash matches the computed hash for SLTs
(case-insensitive comparison). -/
def verifySltHash (slts : List String) (expectedHash : String) : Option Bool :=
  match computeSltHash slts with
  | none => none
  | some computedHash => some (jsToLower computedHash == jsToLower expectedHash)

/-- Validate that a string is a 64-character hexadecimal hash. -/
def isValidSltHash (hash : String) : Bool :=
  hash.length == 64 &&
    hash.data.all (fun c =>
      (48 ≤ c.toNat && c.toNat ≤ 57) || (97 ≤ c.toNat && c.toNat ≤ 102) ||
      (65 ≤ c.toNat && c.toNat ≤ 70))

/-- Task data, fields in the hashing order of the source interface. -/
structure TaskData where
  project_content : String
  expiration_time : Int
  lovelace_amount : Int
  native_assets : List (String × Int)

/-- The 8 big-endian bytes of a 64-bit word, as DataView.setBigUint64 stores a
BigInt reduced modulo 2^64. -/
def beBytes8 (n : Nat) : List Nat :=
  [n / 2 ^ 56 % 256, n / 2 ^ 48 % 256, n / 2 ^ 40 % 256, n / 2 ^ 32 % 256,
   n / 2 ^ 24 % 256, n / 2 ^ 16 % 256, n / 2 ^ 8 % 256, n % 256]

/-- Encode an integer as a CBOR integer (major type 0 or 1, minimal width,
negative values as -1-n); the 8-byte branch stores the value modulo 2^64. -/
def encodePlutusInteger (n : Int) : List Nat :=
  if 0 ≤ n then
    let m := n.toNat
    if m ≤ 23 then [m]
    else if m ≤ 0xff then [0x18, m]
    else if m ≤ 0xffff then [0x19, m / 256, m % 256]
    else if m ≤ 0xffffffff then
      [0x1a, m / 2 ^ 24 % 256, m / 2 ^ 16 % 256, m / 2 ^ 8 % 256, m % 256]
    else 0x1b :: beBytes8 (m % 2 ^ 64)
  else
    let a := (-1 - n).toNat
    if a ≤ 23 then [0x20 + a]
    else if a ≤ 0xff then [0x38, a]
    else if a ≤ 0xffff then [0x39, a / 256, a % 256]
    else if a ≤ 0xffffffff then
      [0x3a, a / 2 ^ 24 % 256, a / 2 ^ 16 % 256, a / 2 ^ 8 % 256, a % 256]
    else 0x3b :: beBytes8 (a % 2 ^ 64)

/-- Encode native assets as a Plutus list of (asset class, quantity) pairs:
empty as the definite zero-length array, nonempty as an indefinite array of
2-element pairs. -/
def encodeNativeAssets (assets : List (String × Int)) : Option (List Nat) :=
  if assets.isEmpty then some [0x80]
  else
    match mapMO (fun asset =>
        match encodePlutusBuiltinByteString (utf8Encode asset.1) with
        | none => none
        | some bs => some (0x82 :: (bs ++ encodePlutusInteger asset.2))) assets with
    | none => none
    | some pairs => some (0x9f :: (pairs.flatten ++ [0xff]))

/-- Encode task data as Plutus Constr 0 with an indefinite field array. -/
def encodeTaskAsPlutusData (task : TaskData) : Option (List Nat) :=
  match encodePlutusBuiltinByteString (utf8Encode task.project_content) with
  | none => none
  | some contentBytes =>
    match encodeNativeAssets task.native_assets with
    | none => none
    | some assetBytes =>
      some ([0xd8, 0x79, 0x9f] ++ contentBytes ++
        encodePlutusInteger task.expiration_time ++
        encodePlutusInteger task.lovelace_amount ++ assetBytes ++ [0xff])

/-- Compute the task hash (token name) from task data. -/
def computeTaskHash (task : TaskData) : Option String :=
  match encodeTaskAsPlutusData task with
  | none => none
  | some cborData => some (bytesToHex (blake2b256 cborData))

/-- Verify that a given hash matches the computed hash for a task
(case-insensitive comparison). -/
def verifyTaskHash (task : TaskData) (expectedHash : String) : Option Bool :=
  match computeTaskHash task with
  | none => none
  | some computedHash => some (jsToLower computedHash == jsToLower expectedHash)

/-- Validate that a string is a 64-character hexadecimal hash. -/
def isValidTaskHash (hash : String) : Bool :=
  hash.length == 64 &&
    hash.data.all (fun c =>
      (48 ≤ c.toNat && c.toNat ≤ 57) || (97 ≤ c.toNat && c.toNat ≤ 102) ||
      (65 ≤ c.toNat && c.toNat ≤ 70))

/-- Debug accessor: the hex rendering of the CBOR encoding of a task. -/
def debugTaskCBOR (task : TaskData) : Option String :=
  match encodeTaskAsPlutusData task with
  | none => none
  | some cborData => some (bytesToHex cborData)

/-! ## Canonicalizer and commitment hash (commitment-hash source file) -/

/-- A JSON-like value as handled by normalizeForHashing: null, undefined,
boolean, number, string, array, or object (an ordered list of key-value
entries, as Object.keys enumerates them). -/
inductive JValue where
  | null : JValue
  | undef : JValue
  | bool (b : Bool) : JValue
  | num (n : Int) : JValue
  | str (s : String) : JValue
  | arr (xs : List JValue) : JValue
  | obj (kvs : List (String × JValue)) : JValue

/-- Whether a value is the undefined marker (the val !== undefined test). -/
def JValue.isUndef : JValue → Bool
  | .undef => true
  | _ => false

/-- Strict lexicographic comparison of character lists by scalar value, the
string comparison used by the default Array.prototype.sort comparator. -/
def lexLt : List Char → List Char → Bool
  | [], [] => false
  | [], _ :: _ => true
  | _ :: _, [] => false
  | a :: as, b :: bs => a.toNat < b.toNat || (a.toNat == b.toNat && lexLt as bs)

/-- Strict string comparison by scalar value. -/
def strLt (a b : String) : Bool := lexLt a.data b.data

/-- The non-strict key order under which Object.keys(value).sort() arranges
entries. -/
def keyLe (a b : String × JValue) : Prop := strLt b.1 a.1 = false

instance : DecidableRel keyLe := fun a b =>
  inferInstanceAs (Decidable (strLt b.1 a.1 = false))

/-- Sort entries by key ascending with a stable sort, as
Object.keys(value).sort() orders the keys before iteration. -/
def sortEntries (kvs : List (String × JValue)) : List (String × JValue) :=
  List.insertionSort keyLe kvs

/-- Whether a character is trimmed by String.prototype.trim (ECMAScript
WhiteSpace or LineTerminator). -/
def jsWhitespace (c : Char) : Bool :=
  let n := c.toNat
  n == 0x9 || n == 0xA || n == 0xB || n == 0xC || n == 0xD || n == 0x20 ||
  n == 0xA0 || n == 0x1680 || (0x2000 ≤ n && n ≤ 0x200A) || n == 0x2028 ||
  n == 0x2029 || n == 0x202F || n == 0x205F || n == 0x3000 || n == 0xFEFF

/-- String.prototype.trim: drop whitespace from both ends. -/
def jsTrim (s : String) : String :=
  ⟨((s.data.dropWhile jsWhitespace).reverse.dropWhile jsWhitespace).reverse⟩

mutual

/-- Normalize a value for consistent hashing: strings trimmed, arrays
normalized elementwise, objects with keys sorted and entries with undefined
values skipped, undefined and null becoming null, numbers and booleans kept. -/
def normalizeForHashing : JValue → JValue
  | .null => .null
  | .undef => .null
  | .str s => .str (jsTrim s)
  | .num n => .num n
  | .bool b => .bool b
  | .arr xs => .arr (normalizeList xs)
  | .obj kvs => .obj (normalizeEntries (sortEntries kvs))
termination_by v => sizeOf v
decreasing_by
  · simp
  · have hp : List.Perm (sortEntries kvs) kvs := List.perm_insertionSort keyLe kvs
    generalize hgen : sortEntries kvs = l at hp ⊢
    have hsz : sizeOf l = sizeOf kvs := by
      clear hgen
      induction hp with
      | nil => rfl
      | cons x _ ih => simp only [List.cons.sizeOf_spec]; omega
      | swap x y l => simp only [List.cons.sizeOf_spec]; omega
      | trans _ _ ih1 ih2 => omega
    simp
    omega

/-- Elementwise normalization of an array (value.map(normalizeForHashing)). -/
def normalizeList : List JValue → List JValue
  | [] => []
  | x :: xs => normalizeForHashing x :: normalizeList xs
termination_by xs => sizeOf xs
decreasing_by
  all_goals simp
  all_goals omega

/-- Normalization of the sorted entry list: entries whose value is undefined
are skipped, every other value is normalized. -/
def normalizeEntries : List (String × JValue) → List (String × JValue)
  | [] => []
  | (k, v) :: es =>
    if v.isUndef then normalizeEntries es
    else (k, normalizeForHashing v) :: normalizeEntries es
termination_by es => sizeOf es
decreasing_by
  all_goals simp
  all_goals omega

end

/-- JSON string escaping of one character, as JSON.stringify quotes string
values. -/
def jsonEscapeChar (c : Char) : List Char :=
  if c = Char.ofNat 34 then [Char.ofNat 92, Char.ofNat 34]
  else if c = Char.ofNat 92 then [Char.ofNat 92, Char.ofNat 92]
  else if c.toNat = 8 then [Char.ofNat 92, Char.ofNat 98]
  else if c.toNat = 9 then [Char.ofNat 92, Char.ofNat 116]
  else if c.toNat = 10 then [Char.ofNat 92, Char.ofNat 110]
  else if c.toNat = 12 then [Char.ofNat 92, Char.ofNat 102]
  else if c.toNat = 13 then [Char.ofNat 92, Char.ofNat 114]
  else if c.toNat < 32 then
    [Char.ofNat 92, Char.ofNat 117, Char.ofNat 48, Char.ofNat 48,
     hexDigit (c.toNat / 16), hexDigit (c.toNat % 16)]
  else [c]

/-- JSON string escaping of a whole string. -/
def jsonEscape (s : String) : String := ⟨(s.data.map jsonEscapeChar).flatten⟩

mutual

/-- Deterministic textual serialization of a normalized value, as
JSON.stringify renders it (no added whitespace; the undefined case is
unreachable from computeCommitmentHash because normalization removes it). -/
def jsonStringify : JValue → String
  | .null => "null"
  | .undef => "null"
  | .bool b => if b then "true" else "false"
  | .num n => toString n
  | .str s => "\"" ++ jsonEscape s ++ "\""
  | .arr xs => "[" ++ jsonStringifyList xs ++ "]"
  | .obj kvs => "\x7b" ++ jsonStringifyEntries kvs ++ "\x7d"
termination_by v => sizeOf v
decreasing_by
  all_goals simp

/-- Comma-separated serialization of array elements. -/
def jsonStringifyList : List JValue → String
  | [] => ""
  | [x] => jsonStringify x
  | x :: y :: xs => jsonStringify x ++ "," ++ jsonStringifyList (y :: xs)
termination_by xs => sizeOf xs
decreasing_by
  all_goals simp
  all_goals omega

/-- Comma-separated serialization of object entries. -/
def jsonStringifyEntries : List (String × JValue) → String
  | [] => ""
  | [(k, v)] => "\"" ++ jsonEscape k ++ "\":" ++ jsonStringify v
  | (k, v) :: e :: es =>
    "\"" ++ jsonEscape k ++ "\":" ++ jsonStringify v ++ "," ++
      jsonStringifyEntries (e :: es)
termination_by es => sizeOf es
decreasing_by
  all_goals simp
  all_goals omega

end

/-- Compute the commitment hash: normalize, serialize to JSON, UTF-8 encode,
Blake2b-256, hex. -/
def computeCommitmentHash (evidence : JValue) : String :=
  bytesToHex (blake2b256 (utf8Encode (jsonStringify (normalizeForHashing evidence))))

/-- Verify that evidence content matches an expected hash (case-insensitive
comparison). -/
def verifyCommitmentHash (evidence : JValue) (expectedHash : String) : Bool :=
  jsToLower (computeCommitmentHash evidence) == jsToLower expectedHash

/-- Validate that a string is a 64-character hexadecimal hash. -/
def isValidCommitmentHash (hash : String) : Bool :=
  hash.length == 64 &&
    hash.data.all (fun c =>
      (48 ≤ c.toNat && c.toNat ≤ 57) || (97 ≤ c.toNat && c.toNat ≤ 102) ||
      (65 ≤ c.toNat && c.toNat ≤ 70))

/-! ## Helper lemmas: chunking -/

theorem sliceFuel_congr (n : Nat) (hn : 0 < n) :
    ∀ fuel fuel2 (l : List Nat), l.length ≤ fuel → l.length ≤ fuel2 →
      sliceFuel n fuel l = sliceFuel n fuel2 l := by
  intro fuel
  induction fuel with
  | zero =>
    intro fuel2 l h1 h2
    have hl : l = [] := by
      cases l with
      | nil => rfl
      | cons a as => simp at h1
    subst hl
    cases fuel2 with
    | zero => rfl
    | succ g => simp [sliceFuel]
  | succ f ih =>
    intro fuel2 l h1 h2
    cases fuel2 with
    | zero =>
      have hl : l = [] := by
        cases l with
        | nil => rfl
        | cons a as => simp at h2
      subst hl
      simp [sliceFuel]
    | succ g =>
      simp only [sliceFuel]
      by_cases hle : l.length ≤ n
      · rw [if_pos hle, if_pos hle]
      · rw [if_neg hle, if_neg hle]
        congr 1
        apply ih
        · simp only [List.length_drop]
          omega
        · simp only [List.length_drop]
          omega

theorem sliceBytes_of_le {n : Nat} {l : List Nat} (h : l.length ≤ n) :
    sliceBytes n l = [l] := by
  unfold sliceBytes
  cases hl : l.length with
  | zero => rfl
  | succ m =>
    simp only [sliceFuel]
    rw [if_pos h]

theorem sliceBytes_step {n : Nat} (hn : 0 < n) {l : List Nat} (h : n < l.length) :
    sliceBytes n l = l.take n :: sliceBytes n (l.drop n) := by
  unfold sliceBytes
  obtain ⟨m, hm⟩ : ∃ m, l.length = m + 1 := ⟨l.length - 1, by omega⟩
  rw [hm]
  simp only [sliceFuel]
  rw [if_neg (by omega)]
  congr 1
  apply sliceFuel_congr n hn
  · simp only [List.length_drop]
    omega
  · exact le_refl _

theorem sliceBytes_chunk_le (n : Nat) (hn : 0 < n) (l : List Nat) :
    ∀ c ∈ sliceBytes n l, c.length ≤ n := by
  by_cases h : l.length ≤ n
  · rw [sliceBytes_of_le h]
    intro c hc
    simp at hc
    subst hc
    exact h
  · rw [sliceBytes_step hn (by omega)]
    intro c hc
    rcases List.mem_cons.mp hc with h1 | h2
    · subst h1
      simp
    · exact sliceBytes_chunk_le n hn (l.drop n) c h2
termination_by l.length
decreasing_by
  simp only [List.length_drop]
  omega

/-! ## Helper lemmas: mapMO -/

theorem mapMO_some {α β : Type} (f : α → Option β) :
    ∀ (xs : List α), (∀ x ∈ xs, ∃ y, f x = some y) → ∃ ys, mapMO f xs = some ys := by
  intro xs
  induction xs with
  | nil => exact fun _ => ⟨[], rfl⟩
  | cons x xs ih =>
    intro h
    obtain ⟨y, hy⟩ := h x (by simp)
    obtain ⟨ys, hys⟩ := ih (fun a ha => h a (by simp [ha]))
    exact ⟨y :: ys, by simp [mapMO, hy, hys]⟩

theorem mapMO_forall2 {α β : Type} {f : α → Option β} :
    ∀ {xs : List α} {ys : List β}, mapMO f xs = some ys →
      List.Forall₂ (fun x y => f x = some y) xs ys := by
  intro xs
  induction xs with
  | nil =>
    intro ys h
    simp only [mapMO, Option.some.injEq] at h
    subst h
    exact .nil
  | cons x xs ih =>
    intro ys h
    simp only [mapMO] at h
    cases hfx : f x with
    | none => rw [hfx] at h; simp at h
    | some y =>
      rw [hfx] at h
      cases hm : mapMO f xs with
      | none => rw [hm] at h; simp at h
      | some ys2 =>
        rw [hm] at h
        simp only [Option.some.injEq] at h
        subst h
        exact .cons hfx (ih hm)

/-! ## Helper lemmas: encoder success -/

theorem encodeCBOR_some_of_le {b : List Nat} (h : b.length ≤ 65535) :
    ∃ r, encodeCBORByteString b = some r := by
  simp only [encodeCBORByteString]
  split_ifs with h1 h2 h3
  all_goals first
  | exact ⟨_, rfl⟩
  | omega

theorem encodeBBS_some (b : List Nat) : ∃ r, encodePlutusBuiltinByteString b = some r := by
  unfold encodePlutusBuiltinByteString
  by_cases h : b.length ≤ PLUTUS_CHUNK_SIZE
  · rw [if_pos h]
    apply encodeCBOR_some_of_le
    simp only [PLUTUS_CHUNK_SIZE] at h
    omega
  · rw [if_neg h]
    obtain ⟨cs, hcs⟩ := mapMO_some encodeCBORByteString _
      (fun c hc => encodeCBOR_some_of_le
        (le_trans (sliceBytes_chunk_le PLUTUS_CHUNK_SIZE (by simp [PLUTUS_CHUNK_SIZE]) b c hc)
          (by simp [PLUTUS_CHUNK_SIZE])))
    rw [hcs]
    exact ⟨_, rfl⟩

theorem encodeArray_some (items : List (List Nat)) :
    ∃ r, encodeAsPlutusArray items = some r := by
  unfold encodeAsPlutusArray
  obtain ⟨es, hes⟩ := mapMO_some encodePlutusBuiltinByteString _
    (fun c _ => encodeBBS_some c)
  rw [hes]
  exact ⟨_, rfl⟩

theorem encodeAssets_some (assets : List (String × Int)) :
    ∃ r, encodeNativeAssets assets = some r := by
  unfold encodeNativeAssets
  by_cases h : assets.isEmpty
  · rw [if_pos h]
    exact ⟨_, rfl⟩
  · rw [if_neg h]
    obtain ⟨ps, hps⟩ := mapMO_some
      (fun asset =>
        match encodePlutusBuiltinByteString (utf8Encode asset.1) with
        | none => none
        | some bs => some (0x82 :: (bs ++ encodePlutusInteger asset.2)))
      assets
      (fun a _ => by
        obtain ⟨bs, hbs⟩ := encodeBBS_some (utf8Encode a.1)
        refine ⟨0x82 :: (bs ++ encodePlutusInteger a.2), ?_⟩
        show (match encodePlutusBuiltinByteString (utf8Encode a.1) with
          | none => none
          | some bs => some (0x82 :: (bs ++ encodePlutusInteger a.2))) = _
        rw [hbs])
    rw [hps]
    exact ⟨_, rfl⟩

theorem encodeTask_some (task : TaskData) :
    ∃ r, encodeTaskAsPlutusData task = some r := by
  unfold encodeTaskAsPlutusData
  obtain ⟨cb, hcb⟩ := encodeBBS_some (utf8Encode task.project_content)
  obtain ⟨ab, hab⟩ := encodeAssets_some task.native_assets
  rw [hcb, hab]
  exact ⟨_, rfl⟩

theorem computeSltHash_some (slts : List String) :
    ∃ s, computeSltHash slts = some s := by
  unfold computeSltHash
  obtain ⟨r, hr⟩ := encodeArray_some (slts.map utf8Encode)
  rw [hr]
  exact ⟨_, rfl⟩

theorem computeTaskHash_some (task : TaskData) :
    ∃ s, computeTaskHash task = some s := by
  unfold computeTaskHash
  obtain ⟨r, hr⟩ := encodeTask_some task
  rw [hr]
  exact ⟨_, rfl⟩

/-! ## Helper lemmas: digest and hex shape -/

theorem blakeF_length (h m : List Nat) (t : Nat) (last : Bool) :
    (blakeF h m t last).length = 8 := by
  unfold blakeF
  simp

theorem blakeBlocks_length :
    ∀ (bs : List (List Nat)) (h : List Nat) (t ll : Nat), h.length = 8 →
      (blakeBlocks h t ll bs).length = 8 := by
  intro bs
  induction bs with
  | nil => intro h t ll hh; exact hh
  | cons b rest ih =>
    intro h t ll hh
    cases rest with
    | nil => exact blakeF_length _ _ _ _
    | cons b2 r =>
      simp only [blakeBlocks]
      exact ih _ _ _ (blakeF_length _ _ _ _)

theorem flatten_leBytes_length (hl : List Nat) :
    ((hl.map leBytes8).flatten).length = 8 * hl.length := by
  induction hl with
  | nil => simp
  | cons a l ih =>
    simp only [List.map_cons, List.flatten_cons, List.length_append, ih, leBytes8,
      List.length_cons, List.length_nil]
    omega

theorem blake2b256_length (m : List Nat) : (blake2b256 m).length = 32 := by
  unfold blake2b256
  have h8 : (blakeBlocks (blakeIV.set 0 ((blakeIV.getD 0 0) ^^^ 0x01010020)) 0 m.length
      (sliceBytes 128 m)).length = 8 :=
    blakeBlocks_length _ _ _ _ (by simp [blakeIV])
  simp only [List.length_take, flatten_leBytes_length, h8]
  omega

theorem blake2b256_bytes_lt (m : List Nat) : ∀ b ∈ blake2b256 m, b < 256 := by
  intro b hb
  unfold blake2b256 at hb
  have hb2 := List.take_subset _ _ hb
  obtain ⟨c, hc, hbc⟩ := List.mem_flatten.mp hb2
  obtain ⟨w, _, hw⟩ := List.mem_map.mp hc
  subst hw
  simp only [leBytes8, List.mem_cons, List.not_mem_nil, or_false] at hbc
  rcases hbc with h | h | h | h | h | h | h | h
  all_goals subst h
  all_goals exact Nat.mod_lt _ (by norm_num)

theorem bytesToHex_length (l : List Nat) : (bytesToHex l).length = 2 * l.length := by
  unfold bytesToHex
  show (List.flatten _).length = _
  induction l with
  | nil => simp
  | cons a l ih =>
    simp only [List.map_cons, List.flatten_cons, List.length_append, ih, List.length_cons]
    simp
    omega

theorem hexDigit_char (m : Nat) (h : m < 16) :
    ((48 ≤ (hexDigit m).toNat && (hexDigit m).toNat ≤ 57) ||
      (97 ≤ (hexDigit m).toNat && (hexDigit m).toNat ≤ 102)) = true := by
  revert h
  revert m
  decide

theorem bytesToHex_chars (l : List Nat) (hl : ∀ b ∈ l, b < 256) :
    ∀ c ∈ (bytesToHex l).data,
      ((48 ≤ c.toNat && c.toNat ≤ 57) || (97 ≤ c.toNat && c.toNat ≤ 102)) = true := by
  intro c hc
  unfold bytesToHex at hc
  have hc2 : c ∈ (l.map (fun b => [hexDigit (b / 16), hexDigit (b % 16)])).flatten := hc
  obtain ⟨cs, hcs, hccs⟩ := List.mem_flatten.mp hc2
  obtain ⟨b, hb, hbcs⟩ := List.mem_map.mp hcs
  subst hbcs
  have hblt := hl b hb
  simp only [List.mem_cons, List.not_mem_nil, or_false] at hccs
  rcases hccs with h | h
  all_goals subst h
  · exact hexDigit_char _ (by omega)
  · exact hexDigit_char _ (Nat.mod_lt _ (by norm_num))

/-! ## Claim theorems -/

/-- C10: computeSltHash on the three documented SLT strings returns exactly the
documented reference value. -/
theorem slt_known_vector :
    computeSltHash
      ["I can set up a Typescript development environment.",
       "I can use Github CLI to create an issue.",
       "I can run the Andamio T3 App Template locally."] =
    some "eff7d90a6ed2eaf32b523efb25d95f748166158bcce048717a4920478be052cf" := by
  decide

/-- C9: each of the three hash pipelines returns, without failing, a string of
exactly 64 lowercase hexadecimal characters; in particular the byte-string
encoder failure branch is never reached from these pipelines. -/
theorem pipelines_hex_output (slts : List String) (task : TaskData) (evidence : JValue) :
    (∃ s, computeSltHash slts = some s ∧ s.length = 64 ∧
      s.data.all (fun c =>
        (48 ≤ c.toNat && c.toNat ≤ 57) || (97 ≤ c.toNat && c.toNat ≤ 102)) = true) ∧
    (∃ s, computeTaskHash task = some s ∧ s.length = 64 ∧
      s.data.all (fun c =>
        (48 ≤ c.toNat && c.toNat ≤ 57) || (97 ≤ c.toNat && c.toNat ≤ 102)) = true) ∧
    ((computeCommitmentHash evidence).length = 64 ∧
      (computeCommitmentHash evidence).data.all (fun c =>
        (48 ≤ c.toNat && c.toNat ≤ 57) || (97 ≤ c.toNat && c.toNat ≤ 102)) = true) := by
  refine ⟨?_, ?_, ?_, ?_⟩
  · obtain ⟨r, hr⟩ := encodeArray_some (slts.map utf8Encode)
    refine ⟨bytesToHex (blake2b256 r), ?_, ?_, ?_⟩
    · unfold computeSltHash
      rw [hr]
    · rw [bytesToHex_length, blake2b256_length]
    · rw [List.all_eq_true]
      exact fun c hc => bytesToHex_chars _ (blake2b256_bytes_lt r) c hc
  · obtain ⟨r, hr⟩ := encodeTask_some task
    refine ⟨bytesToHex (blake2b256 r), ?_, ?_, ?_⟩
    · unfold computeTaskHash
      rw [hr]
    · rw [bytesToHex_length, blake2b256_length]
    · rw [List.all_eq_true]
      exact fun c hc => bytesToHex_chars _ (blake2b256_bytes_lt r) c hc
  · unfold computeCommitmentHash
    rw [bytesToHex_length, blake2b256_length]
  · unfold computeCommitmentHash
    rw [List.all_eq_true]
    exact fun c hc => bytesToHex_chars _ (blake2b256_bytes_lt _) c hc

/-- C5: the definite byte-string encoder emits header 0x40+len and the payload
for len at most 23, header 0x58 plus one length byte for len 24..255, header
0x59 plus two big-endian length bytes for len 256..65535, and fails exactly
when len exceeds 65535. -/
theorem cbor_bytestring_spec (b : List Nat) :
    (b.length ≤ 23 → encodeCBORByteString b = some ((0x40 + b.length) :: b)) ∧
    (24 ≤ b.length → b.length ≤ 255 → encodeCBORByteString b = some (0x58 :: b.length :: b)) ∧
    (256 ≤ b.length → b.length ≤ 65535 →
      encodeCBORByteString b = some (0x59 :: (b.length / 256) :: (b.length % 256) :: b) ∧
      256 * (b.length / 256) + b.length % 256 = b.length ∧
      b.length / 256 < 256 ∧ b.length % 256 < 256) ∧
    (encodeCBORByteString b = none ↔ 65535 < b.length) := by
  simp only [encodeCBORByteString]
  refine ⟨fun h => ?_, fun h h2 => ?_, fun h h2 => ?_, ?_, ?_⟩
  · rw [if_pos h]
  · rw [if_neg (by omega), if_pos h2]
  · rw [if_neg (by omega), if_neg (by omega), if_pos h2]
    exact ⟨rfl, by omega, by omega, by omega⟩
  · intro hn
    split_ifs at hn with h1 h2 h3
    omega
  · intro h
    rw [if_neg (by omega), if_neg (by omega), if_neg (by omega)]

/-- Witness for C5 at a 300-byte input (the 0x59 two-length-byte branch). -/
theorem cbor_bytestring_spec_witness :
    encodeCBORByteString (List.replicate 300 7) =
      some (0x59 :: 1 :: 44 :: List.replicate 300 7) := by
  have h := (cbor_bytestring_spec (List.replicate 300 7)).2.2.1
    (by simp) (by simp)
  simpa using h.1

/-- Counterexample for C4: at n = 2^64 the 8-byte branch stores the value
reduced modulo 2^64 (all zero bytes), so the bytes do not hold n exactly as
the claim states for every larger n. -/
theorem plutus_integer_widths_cex :
    encodePlutusInteger 18446744073709551616 = [0x1b, 0, 0, 0, 0, 0, 0, 0, 0] ∧
    List.foldl (fun a b => 256 * a + b) 0 [0, 0, 0, 0, 0, 0, 0, 0] ≠
      (18446744073709551616 : Int).toNat := by
  exact ⟨by decide, by decide⟩

/-- C4 (amended): the integer encoder follows the CBOR width ladder with
big-endian bytes holding the value exactly for magnitudes below 2^64 (larger
magnitudes are reduced modulo 2^64 by the 8-byte store); negative n encodes
-1-n under major type 1 with the same ladder. -/
theorem plutus_integer_widths_amended (n : Int) :
    (0 ≤ n → n ≤ 23 → encodePlutusInteger n = [n.toNat]) ∧
    (24 ≤ n → n ≤ 255 → encodePlutusInteger n = [0x18, n.toNat]) ∧
    (256 ≤ n → n ≤ 65535 →
      encodePlutusInteger n = [0x19, n.toNat / 256, n.toNat % 256] ∧
      List.foldl (fun a b => 256 * a + b) 0 [n.toNat / 256, n.toNat % 256] = n.toNat) ∧
    (65536 ≤ n → n ≤ 4294967295 →
      encodePlutusInteger n =
        [0x1a, n.toNat / 2 ^ 24 % 256, n.toNat / 2 ^ 16 % 256,
          n.toNat / 2 ^ 8 % 256, n.toNat % 256] ∧
      List.foldl (fun a b => 256 * a + b) 0
        [n.toNat / 2 ^ 24 % 256, n.toNat / 2 ^ 16 % 256,
          n.toNat / 2 ^ 8 % 256, n.toNat % 256] = n.toNat) ∧
    (4294967296 ≤ n → n < 18446744073709551616 →
      encodePlutusInteger n = 0x1b :: beBytes8 n.toNat ∧
      List.foldl (fun a b => 256 * a + b) 0 (beBytes8 n.toNat) = n.toNat) ∧
    (n < 0 → -18446744073709551616 ≤ n →
      ((-1 - n) ≤ 23 → encodePlutusInteger n = [0x20 + (-1 - n).toNat]) ∧
      (24 ≤ -1 - n → -1 - n ≤ 255 → encodePlutusInteger n = [0x38, (-1 - n).toNat]) ∧
      (256 ≤ -1 - n → -1 - n ≤ 65535 →
        encodePlutusInteger n = [0x39, (-1 - n).toNat / 256, (-1 - n).toNat % 256]) ∧
      (65536 ≤ -1 - n → -1 - n ≤ 4294967295 →
        encodePlutusInteger n =
          [0x3a, (-1 - n).toNat / 2 ^ 24 % 256, (-1 - n).toNat / 2 ^ 16 % 256,
            (-1 - n).toNat / 2 ^ 8 % 256, (-1 - n).toNat % 256]) ∧
      (4294967296 ≤ -1 - n →
        encodePlutusInteger n = 0x3b :: beBytes8 (-1 - n).toNat ∧
        List.foldl (fun a b => 256 * a + b) 0 (beBytes8 (-1 - n).toNat) = (-1 - n).toNat)) := by
  refine ⟨fun h0 h => ?_, fun h0 h => ?_, fun h0 h => ?_, fun h0 h => ?_, fun h0 h => ?_,
    fun hneg hlo => ⟨fun h => ?_, fun h0 h => ?_, fun h0 h => ?_, fun h0 h => ?_, fun h0 => ?_⟩⟩
  · simp only [encodePlutusInteger]
    rw [if_pos (by omega), if_pos (by omega)]
  · simp only [encodePlutusInteger]
    rw [if_pos (by omega), if_neg (by omega), if_pos (by omega)]
  · simp only [encodePlutusInteger]
    rw [if_pos (by omega), if_neg (by omega), if_neg (by omega), if_pos (by omega)]
    refine ⟨rfl, ?_⟩
    simp only [List.foldl]
    omega
  · simp only [encodePlutusInteger]
    rw [if_pos (by omega), if_neg (by omega), if_neg (by omega), if_neg (by omega),
      if_pos (by omega)]
    refine ⟨rfl, ?_⟩
    simp only [List.foldl]
    norm_num
    omega
  · simp only [encodePlutusInteger]
    rw [if_pos (by omega), if_neg (by omega), if_neg (by omega), if_neg (by omega),
      if_neg (by omega)]
    have hm : n.toNat % 2 ^ 64 = n.toNat := Nat.mod_eq_of_lt (by omega)
    rw [hm]
    refine ⟨rfl, ?_⟩
    simp only [beBytes8, List.foldl]
    norm_num
    omega
  · simp only [encodePlutusInteger]
    rw [if_neg (by omega), if_pos (by omega)]
  · simp only [encodePlutusInteger]
    rw [if_neg (by omega), if_neg (by omega), if_pos (by omega)]
  · simp only [encodePlutusInteger]
    rw [if_neg (by omega), if_neg (by omega), if_neg (by omega), if_pos (by omega)]
  · simp only [encodePlutusInteger]
    rw [if_neg (by omega), if_neg (by omega), if_neg (by omega), if_neg (by omega),
      if_pos (by omega)]
  · simp only [encodePlutusInteger]
    rw [if_neg (by omega), if_neg (by omega), if_neg (by omega), if_neg (by omega),
      if_neg (by omega)]
    have hm : (-1 - n).toNat % 2 ^ 64 = (-1 - n).toNat := Nat.mod_eq_of_lt (by omega)
    rw [hm]
    refine ⟨rfl, ?_⟩
    simp only [beBytes8, List.foldl]
    norm_num
    omega

/-- Witness for C4 at the documented task expiration timestamp (8-byte
branch) and at a negative value. -/
theorem plutus_integer_widths_amended_witness :
    encodePlutusInteger 1769027280000 = 0x1b :: beBytes8 1769027280000 ∧
    encodePlutusInteger (-30) = [0x38, 29] := by
  constructor
  · exact ((plutus_integer_widths_amended 1769027280000).2.2.2.2.1
      (by norm_num) (by norm_num)).1
  · have h := ((plutus_integer_widths_amended (-30)).2.2.2.2.2
      (by norm_num) (by norm_num)).2.1 (by norm_num) (by norm_num)
    simpa using h

/-- Counterexample for C3: the top-level SLT array encoder maps the empty list
to the empty indefinite array 0x9f 0xff, not to the definite zero-length
array 0x80 that the claim requires for every pipeline list. -/
theorem empty_array_asymmetry_cex :
    encodeAsPlutusArray [] = some [0x9f, 0xff] ∧
    (some [0x9f, 0xff] : Option (List Nat)) ≠ some [0x80] := by
  exact ⟨rfl, by decide⟩

/-- C3 (amended): the native-asset encoder maps the empty list to the single
byte 0x80 and a nonempty list to indefinite framing, while the top-level SLT
array encoder uses indefinite framing 0x9f ... 0xff for every list, including
the empty one. -/
theorem empty_array_asymmetry_amended :
    (encodeNativeAssets [] = some [0x80]) ∧
    (∀ assets : List (String × Int), assets ≠ [] →
      ∃ body, encodeNativeAssets assets = some (0x9f :: (body ++ [0xff]))) ∧
    (∀ items : List (List Nat), ∃ body,
      encodeAsPlutusArray items = some (0x9f :: (body ++ [0xff]))) := by
  refine ⟨rfl, ?_, ?_⟩
  · intro assets hne
    obtain ⟨r, hr⟩ := encodeAssets_some assets
    unfold encodeNativeAssets at hr
    rw [if_neg (by simpa using hne)] at hr
    cases hm : mapMO (fun asset =>
        match encodePlutusBuiltinByteString (utf8Encode asset.1) with
        | none => none
        | some bs => some (0x82 :: (bs ++ encodePlutusInteger asset.2))) assets with
    | none => rw [hm] at hr; simp at hr
    | some ps =>
      rw [hm] at hr
      exact ⟨ps.flatten, by
        unfold encodeNativeAssets
        rw [if_neg (by simpa using hne), hm]⟩
  · intro items
    obtain ⟨es, hes⟩ := mapMO_some encodePlutusBuiltinByteString _
      (fun c _ => encodeBBS_some c)
    exact ⟨es.flatten, by
      unfold encodeAsPlutusArray
      rw [hes]⟩

/-- Witness for C3 at a one-element native-asset list. -/
theorem empty_array_asymmetry_amended_witness :
    ([("78", (1 : Int))] : List (String × Int)) ≠ [] ∧
    ∃ body, encodeNativeAssets [("78", (1 : Int))] = some (0x9f :: (body ++ [0xff])) := by
  exact ⟨by simp, empty_array_asymmetry_amended.2.1 _ (by simp)⟩

/-- C2: the chunked byte-string encoder is the definite encoder for buffers up
to 64 bytes and otherwise emits 0x5f, the definite encodings of the successive
64-byte slices, and the break byte; a 64-byte buffer yields one definite
string, a 65-byte buffer exactly two chunks of 64 and 1 bytes. -/
theorem chunked_bytestring_spec (b : List Nat) :
    (b.length ≤ 64 → encodePlutusBuiltinByteString b = encodeCBORByteString b) ∧
    (64 < b.length →
      (∃ chunks, mapMO encodeCBORByteString (sliceBytes 64 b) = some chunks ∧
        encodePlutusBuiltinByteString b = some (0x5f :: (chunks.flatten ++ [0xff]))) ∧
      sliceBytes 64 b = b.take 64 :: sliceBytes 64 (b.drop 64)) ∧
    (b.length = 64 → encodePlutusBuiltinByteString b = some (0x58 :: 64 :: b)) ∧
    (b.length = 65 →
      sliceBytes 64 b = [b.take 64, b.drop 64] ∧
      (b.take 64).length = 64 ∧ (b.drop 64).length = 1 ∧
      encodePlutusBuiltinByteString b =
        some (0x5f :: ((0x58 :: 64 :: b.take 64) ++ ((0x41 :: b.drop 64) ++ [0xff])))) := by
  have hstep : ∀ l : List Nat, 64 < l.length →
      sliceBytes 64 l = l.take 64 :: sliceBytes 64 (l.drop 64) :=
    fun l hl => sliceBytes_step (by norm_num) hl
  refine ⟨fun h => ?_, fun h => ⟨?_, hstep b h⟩, fun h => ?_, fun h => ?_⟩
  · unfold encodePlutusBuiltinByteString
    rw [if_pos (by simpa [PLUTUS_CHUNK_SIZE] using h)]
  · obtain ⟨chunks, hchunks⟩ := mapMO_some encodeCBORByteString _
      (fun c hc => encodeCBOR_some_of_le
        (le_trans (sliceBytes_chunk_le 64 (by norm_num) b c hc) (by norm_num)))
    refine ⟨chunks, ?_, ?_⟩
    · exact hchunks
    · unfold encodePlutusBuiltinByteString
      rw [if_neg (by simp [PLUTUS_CHUNK_SIZE]; omega)]
      show (match mapMO encodeCBORByteString (sliceBytes 64 b) with
        | none => none
        | some chunks => some (0x5f :: (chunks.flatten ++ [0xff]))) = _
      rw [hchunks]
  · unfold encodePlutusBuiltinByteString
    rw [if_pos (by simp [PLUTUS_CHUNK_SIZE]; omega)]
    simp only [encodeCBORByteString]
    rw [if_neg (by omega), if_pos (by omega), h]
  · have h1 : sliceBytes 64 b = b.take 64 :: sliceBytes 64 (b.drop 64) :=
      hstep b (by omega)
    have h2 : (b.drop 64).length = 1 := by
      simp only [List.length_drop]
      omega
    have h3 : sliceBytes 64 (b.drop 64) = [b.drop 64] :=
      sliceBytes_of_le (by omega)
    have h4 : (b.take 64).length = 64 := by
      simp only [List.length_take]
      omega
    refine ⟨by rw [h1, h3], h4, h2, ?_⟩
    unfold encodePlutusBuiltinByteString
    rw [if_neg (by simp [PLUTUS_CHUNK_SIZE]; omega)]
    simp only [PLUTUS_CHUNK_SIZE]
    rw [h1, h3]
    have e1 : encodeCBORByteString (b.take 64) = some (0x58 :: 64 :: b.take 64) := by
      simp only [encodeCBORByteString]
      rw [if_neg (by omega), if_pos (by omega), h4]
    have e2 : encodeCBORByteString (b.drop 64) = some (0x41 :: b.drop 64) := by
      simp only [encodeCBORByteString]
      rw [if_pos (by omega), h2]
    simp only [mapMO, e1, e2]
    simp

/-- Witness for C2 at a 65-byte buffer. -/
theorem chunked_bytestring_spec_witness :
    encodePlutusBuiltinByteString (List.replicate 65 3) =
      some (0x5f :: ((0x58 :: 64 :: (List.replicate 65 3).take 64) ++
        ((0x41 :: (List.replicate 65 3).drop 64) ++ [0xff]))) := by
  exact ((chunked_bytestring_spec (List.replicate 65 3)).2.2.2 (by simp)).2.2.2

/-- C1: the task encoder emits the 2-byte constructor tag d8 79, the
indefinite-array start 9f, the four fields in fixed order (chunked content
bytes, integer expiration, integer lovelace, native-asset list), then the
break byte ff; a nonempty native-asset list is an indefinite array whose
elements are each 0x82 followed by the chunked asset-class bytes and the
integer quantity. -/
theorem task_encoding_layout (task : TaskData) (cb ab : List Nat)
    (h1 : encodePlutusBuiltinByteString (utf8Encode task.project_content) = some cb)
    (h2 : encodeNativeAssets task.native_assets = some ab) :
    encodeTaskAsPlutusData task =
      some ([0xd8, 0x79] ++ [0x9f] ++ cb ++ encodePlutusInteger task.expiration_time ++
        encodePlutusInteger task.lovelace_amount ++ ab ++ [0xff]) ∧
    (task.native_assets ≠ [] →
      ∃ els, ab = 0x9f :: (els.flatten ++ [0xff]) ∧
        List.Forall₂ (fun (a : String × Int) el => ∃ bs,
          encodePlutusBuiltinByteString (utf8Encode a.1) = some bs ∧
          el = 0x82 :: (bs ++ encodePlutusInteger a.2)) task.native_assets els) := by
  constructor
  · unfold encodeTaskAsPlutusData
    rw [h1, h2]
    simp
  · intro hne
    unfold encodeNativeAssets at h2
    rw [if_neg (by simpa using hne)] at h2
    cases hm : mapMO (fun asset =>
        match encodePlutusBuiltinByteString (utf8Encode asset.1) with
        | none => none
        | some bs => some (0x82 :: (bs ++ encodePlutusInteger asset.2)))
        task.native_assets with
    | none => rw [hm] at h2; simp at h2
    | some els =>
      rw [hm] at h2
      simp only [Option.some.injEq] at h2
      refine ⟨els, h2.symm, ?_⟩
      have hf := mapMO_forall2 hm
      refine hf.imp ?_
      intro a el hael
      cases hbs : encodePlutusBuiltinByteString (utf8Encode a.1) with
      | none => rw [hbs] at hael; simp at hael
      | some bs =>
        rw [hbs] at hael
        simp only [Option.some.injEq] at hael
        exact ⟨bs, rfl, hael.symm⟩

/-- Witness for C1 at the documented example task (with one native asset so
that the nonempty branch is exercised). -/
theorem task_encoding_layout_witness :
    encodeTaskAsPlutusData ⟨"Open Task #1", 1769027280000, 15000000, [("78", 2)]⟩ =
      some ([0xd8, 0x79] ++ [0x9f] ++ [0x4c, 0x4f, 0x70, 0x65, 0x6e, 0x20, 0x54, 0x61,
        0x73, 0x6b, 0x20, 0x23, 0x31] ++
        encodePlutusInteger 1769027280000 ++ encodePlutusInteger 15000000 ++
        [0x9f, 0x82, 0x42, 0x37, 0x38, 0x02, 0xff] ++ [0xff]) := by
  have h := task_encoding_layout ⟨"Open Task #1", 1769027280000, 15000000, [("78", 2)]⟩
    [0x4c, 0x4f, 0x70, 0x65, 0x6e, 0x20, 0x54, 0x61, 0x73, 0x6b, 0x20, 0x23, 0x31]
    [0x9f, 0x82, 0x42, 0x37, 0x38, 0x02, 0xff]
    (by decide) (by decide)
  exact h.1

/-! ## Helper lemmas: case-insensitive comparison -/

theorem jsToLower_change_ne (pre post : List Char) (c c2 : Char)
    (h : lowerChar c2 ≠ lowerChar c) :
    ((jsToLower ⟨pre ++ c :: post⟩ == jsToLower ⟨pre ++ c2 :: post⟩) : Bool) = false := by
  unfold jsToLower
  rw [beq_eq_false_iff_ne]
  intro heq
  have hdata : (pre ++ c :: post).map lowerChar = (pre ++ c2 :: post).map lowerChar := by
    have := congrArg String.data heq
    simpa using this
  rw [List.map_append, List.map_append, List.map_cons, List.map_cons] at hdata
  have h2 := List.append_cancel_left hdata
  simp only [List.cons.injEq] at h2
  exact h h2.1.symm

/-- C8 (amended): each pipeline verifies its own computed hash, and a
single-character change to the expected hash makes verification fail exactly
when the changed character differs from the original after ASCII lowercasing
(a pure letter-case change still verifies, because comparison is
case-insensitive). -/
theorem verify_roundtrip_amended :
    (∀ slts, ∃ h, computeSltHash slts = some h ∧ verifySltHash slts h = some true) ∧
    (∀ task, ∃ h, computeTaskHash task = some h ∧ verifyTaskHash task h = some true) ∧
    (∀ evidence, verifyCommitmentHash evidence (computeCommitmentHash evidence) = true) ∧
    (∀ slts pre c post c2, computeSltHash slts = some (String.mk (pre ++ c :: post)) →
      lowerChar c2 ≠ lowerChar c →
      verifySltHash slts (String.mk (pre ++ c2 :: post)) = some false) ∧
    (∀ task pre c post c2, computeTaskHash task = some (String.mk (pre ++ c :: post)) →
      lowerChar c2 ≠ lowerChar c →
      verifyTaskHash task (String.mk (pre ++ c2 :: post)) = some false) ∧
    (∀ evidence pre c post c2,
      computeCommitmentHash evidence = String.mk (pre ++ c :: post) →
      lowerChar c2 ≠ lowerChar c →
      verifyCommitmentHash evidence (String.mk (pre ++ c2 :: post)) = false) := by
  refine ⟨?_, ?_, ?_, ?_, ?_, ?_⟩
  · intro slts
    obtain ⟨h, hh⟩ := computeSltHash_some slts
    refine ⟨h, hh, ?_⟩
    unfold verifySltHash
    rw [hh]
    simp
  · intro task
    obtain ⟨h, hh⟩ := computeTaskHash_some task
    refine ⟨h, hh, ?_⟩
    unfold verifyTaskHash
    rw [hh]
    simp
  · intro evidence
    unfold verifyCommitmentHash
    simp
  · intro slts pre c post c2 hc hne
    unfold verifySltHash
    rw [hc]
    show some ((jsToLower (String.mk (pre ++ c :: post)) ==
      jsToLower (String.mk (pre ++ c2 :: post))) : Bool) = some false
    rw [jsToLower_change_ne pre post c c2 hne]
  · intro task pre c post c2 hc hne
    unfold verifyTaskHash
    rw [hc]
    show some ((jsToLower (String.mk (pre ++ c :: post)) ==
      jsToLower (String.mk (pre ++ c2 :: post))) : Bool) = some false
    rw [jsToLower_change_ne pre post c c2 hne]
  · intro evidence pre c post c2 hc hne
    unfold verifyCommitmentHash
    rw [hc]
    exact jsToLower_change_ne pre post c c2 hne

/-- Counterexample for C8: uppercasing the first character of the computed
hash for the empty SLT list is a single-character change, yet verification
still succeeds because the comparison is case-insensitive. -/
theorem verify_single_change_cex :
    computeSltHash [] =
      some "afc0da64183bf2664f3d4eec7238d524ba607faeeab24fc100eb861dba69971b" ∧
    String.data "Afc0da64183bf2664f3d4eec7238d524ba607faeeab24fc100eb861dba69971b" =
      'A' :: String.data "fc0da64183bf2664f3d4eec7238d524ba607faeeab24fc100eb861dba69971b" ∧
    String.data "afc0da64183bf2664f3d4eec7238d524ba607faeeab24fc100eb861dba69971b" =
      'a' :: String.data "fc0da64183bf2664f3d4eec7238d524ba607faeeab24fc100eb861dba69971b" ∧
    'A' ≠ 'a' ∧
    verifySltHash []
      "Afc0da64183bf2664f3d4eec7238d524ba607faeeab24fc100eb861dba69971b" = some true := by
  refine ⟨by decide, by decide, by decide, by decide, by decide⟩

/-- Witness for C8: changing the first hash character to a different letter
(not a case variant) makes verification fail. -/
theorem verify_roundtrip_amended_witness :
    verifySltHash []
      "bfc0da64183bf2664f3d4eec7238d524ba607faeeab24fc100eb861dba69971b" = some false := by
  have h := verify_roundtrip_amended.2.2.2.1 [] []
    'a' (String.data "fc0da64183bf2664f3d4eec7238d524ba607faeeab24fc100eb861dba69971b") 'b'
    (by decide) (by decide)
  have e : String.mk ([] ++ 'b' ::
      String.data "fc0da64183bf2664f3d4eec7238d524ba607faeeab24fc100eb861dba69971b") =
      "bfc0da64183bf2664f3d4eec7238d524ba607faeeab24fc100eb861dba69971b" := by decide
  rw [e] at h
  exact h

/-! ## Helper lemmas: key order and sorting -/

theorem lexLt_asymm : ∀ as bs : List Char, lexLt as bs = true → lexLt bs as = false := by
  intro as
  induction as with
  | nil =>
    intro bs h
    cases bs with
    | nil => simp [lexLt] at h
    | cons b bs => simp [lexLt]
  | cons a as ih =>
    intro bs h
    cases bs with
    | nil => simp [lexLt] at h
    | cons b bs =>
      simp only [lexLt, Bool.or_eq_true, Bool.and_eq_true, decide_eq_true_eq,
        beq_iff_eq] at h
      simp only [lexLt, Bool.or_eq_false_iff, Bool.and_eq_false_iff,
        decide_eq_false_iff_not, beq_eq_false_iff_ne]
      rcases h with h | ⟨heq, hrec⟩
      · constructor
        · omega
        · left
          omega
      · constructor
        · omega
        · right
          exact ih bs hrec

theorem lexLt_trans : ∀ as bs cs : List Char,
    lexLt as bs = true → lexLt bs cs = true → lexLt as cs = true := by
  intro as
  induction as with
  | nil =>
    intro bs cs h1 h2
    cases cs with
    | nil =>
      cases bs with
      | nil => simp [lexLt] at h1
      | cons b bs => simp [lexLt] at h2
    | cons c cs => simp [lexLt]
  | cons a as ih =>
    intro bs cs h1 h2
    cases bs with
    | nil => simp [lexLt] at h1
    | cons b bs =>
      cases cs with
      | nil => simp [lexLt] at h2
      | cons c cs =>
        simp only [lexLt, Bool.or_eq_true, Bool.and_eq_true, decide_eq_true_eq,
          beq_iff_eq] at h1 h2 ⊢
        rcases h1 with h1 | ⟨h1e, h1r⟩
        · rcases h2 with h2 | ⟨h2e, h2r⟩
          · left; omega
          · left; omega
        · rcases h2 with h2 | ⟨h2e, h2r⟩
          · left; omega
          · right
            exact ⟨by omega, ih bs cs h1r h2r⟩

theorem lexLt_eq_of_not : ∀ as bs : List Char,
    lexLt as bs = false → lexLt bs as = false → as = bs := by
  intro as
  induction as with
  | nil =>
    intro bs h1 _
    cases bs with
    | nil => rfl
    | cons b bs => simp [lexLt] at h1
  | cons a as ih =>
    intro bs h1 h2
    cases bs with
    | nil => simp [lexLt] at h2
    | cons b bs =>
      simp only [lexLt, Bool.or_eq_false_iff, Bool.and_eq_false_iff,
        decide_eq_false_iff_not, beq_eq_false_iff_ne] at h1 h2
      obtain ⟨h1a, h1b⟩ := h1
      obtain ⟨h2a, h2b⟩ := h2
      have hab : a.toNat = b.toNat := by omega
      have hab2 : a = b := Char.eq_of_val_eq (UInt32.ext hab)
      subst hab2
      rcases h1b with h1b | h1b
      · omega
      · rcases h2b with h2b | h2b
        · omega
        · rw [ih bs h1b h2b]

theorem string_eq_of_data {a b : String} (h : a.data = b.data) : a = b :=
  congrArg String.mk h

theorem strLt_eq_of_not {a b : String} (h1 : strLt a b = false) (h2 : strLt b a = false) :
    a = b :=
  string_eq_of_data (lexLt_eq_of_not a.data b.data h1 h2)

theorem keyLe_total (a b : String × JValue) : keyLe a b ∨ keyLe b a := by
  unfold keyLe
  cases h : strLt b.1 a.1 with
  | false => exact Or.inl rfl
  | true => exact Or.inr (lexLt_asymm _ _ h)

theorem keyLe_trans {a b c : String × JValue} (h1 : keyLe a b) (h2 : keyLe b c) :
    keyLe a c := by
  unfold keyLe at h1 h2 ⊢
  cases h : strLt c.1 a.1 with
  | false => rfl
  | true =>
    exfalso
    cases hab : strLt a.1 b.1 with
    | true =>
      have : strLt c.1 b.1 = true := lexLt_trans _ _ _ h hab
      rw [h2] at this
      exact Bool.false_ne_true this
    | false =>
      have heq : a.1 = b.1 := strLt_eq_of_not hab h1
      rw [heq] at h
      rw [h2] at h
      exact Bool.false_ne_true h

theorem sortEntries_sorted (l : List (String × JValue)) :
    List.Sorted keyLe (sortEntries l) := by
  haveI : IsTotal (String × JValue) keyLe := ⟨keyLe_total⟩
  haveI : IsTrans (String × JValue) keyLe := ⟨fun _ _ _ => keyLe_trans⟩
  exact List.sorted_insertionSort keyLe l

theorem sortEntries_perm (l : List (String × JValue)) :
    List.Perm (sortEntries l) l :=
  List.perm_insertionSort keyLe l

theorem sortEntries_eq_of_sorted {l : List (String × JValue)}
    (h : List.Sorted keyLe l) : sortEntries l = l :=
  h.insertionSort_eq

/-! ## Helper lemmas: normalization -/

theorem normalizeEntries_eq (es : List (String × JValue)) :
    normalizeEntries es =
      (es.filter (fun e => !e.2.isUndef)).map (fun e => (e.1, normalizeForHashing e.2)) := by
  induction es with
  | nil => simp [normalizeEntries]
  | cons e es ih =>
    obtain ⟨k, v⟩ := e
    by_cases hv : v.isUndef
    · simp [normalizeEntries, hv, ih, List.filter_cons]
    · simp [normalizeEntries, hv, ih, List.filter_cons]

theorem normalize_not_undef (v : JValue) : (normalizeForHashing v).isUndef = false := by
  cases v <;> simp [normalizeForHashing, JValue.isUndef]

theorem normalizeEntries_sorted {es : List (String × JValue)}
    (h : List.Sorted keyLe es) : List.Sorted keyLe (normalizeEntries es) := by
  rw [normalizeEntries_eq]
  show List.Pairwise keyLe _
  rw [List.pairwise_map]
  exact (h.sublist (List.filter_sublist es)).imp (fun hab => hab)

theorem normalizeEntries_mem (es : List (String × JValue)) (k : String) (v : JValue) :
    (k, v) ∈ normalizeEntries es ↔
      ∃ w, (k, w) ∈ es ∧ w.isUndef = false ∧ v = normalizeForHashing w := by
  rw [normalizeEntries_eq]
  constructor
  · intro hm
    obtain ⟨e, he, heq⟩ := List.mem_map.mp hm
    obtain ⟨hmem, hfil⟩ := List.mem_filter.mp he
    obtain ⟨k2, w⟩ := e
    simp only [Prod.mk.injEq] at heq
    obtain ⟨hk, hv⟩ := heq
    subst hk
    refine ⟨w, hmem, ?_, hv.symm⟩
    simpa using hfil
  · rintro ⟨w, hmem, hundef, hv⟩
    apply List.mem_map.mpr
    exact ⟨(k, w), List.mem_filter.mpr ⟨hmem, by simp [hundef]⟩, by simp [hv]⟩

theorem dropWhile_dropWhile (p : Char → Bool) (l : List Char) :
    (l.dropWhile p).dropWhile p = l.dropWhile p := by
  induction l with
  | nil => simp
  | cons a l ih =>
    by_cases h : p a
    · simp [List.dropWhile_cons, h, ih]
    · simp [List.dropWhile_cons, h]

theorem dropWhile_head_false (p : Char → Bool) :
    ∀ (l : List Char) (a : Char) (as : List Char), l.dropWhile p = a :: as → p a = false := by
  intro l
  induction l with
  | nil => intro a as h; simp at h
  | cons x xs ih =>
    intro a as h
    by_cases hx : p x
    · rw [List.dropWhile_cons_of_pos hx] at h
      exact ih a as h
    · rw [List.dropWhile_cons_of_neg hx] at h
      injection h with h1 h2
      subst h1
      simpa using hx

theorem jsTrim_idem (s : String) : jsTrim (jsTrim s) = jsTrim s := by
  unfold jsTrim
  apply congrArg String.mk
  show ((((((s.data.dropWhile jsWhitespace).reverse.dropWhile
      jsWhitespace).reverse).dropWhile jsWhitespace).reverse.dropWhile
      jsWhitespace).reverse) = _
  set A := s.data.dropWhile jsWhitespace with hA
  set R := A.reverse.dropWhile jsWhitespace with hR
  have hRfix : R.dropWhile jsWhitespace = R := dropWhile_dropWhile jsWhitespace A.reverse
  have h1 : R.reverse.dropWhile jsWhitespace = R.reverse := by
    rcases hrev : R.reverse with _ | ⟨b, B2⟩
    · simp
    · have hpref : R.reverse ++ (A.reverse.takeWhile jsWhitespace).reverse = A := by
        calc R.reverse ++ (A.reverse.takeWhile jsWhitespace).reverse
            = (A.reverse.takeWhile jsWhitespace ++ R).reverse := by
              rw [List.reverse_append]
          _ = (A.reverse.takeWhile jsWhitespace ++
                A.reverse.dropWhile jsWhitespace).reverse := by rw [hR]
          _ = A.reverse.reverse := by rw [List.takeWhile_append_dropWhile]
          _ = A := by rw [List.reverse_reverse]
      rw [hrev] at hpref
      cases hA2 : A with
      | nil =>
        rw [hA2] at hpref
        simp at hpref
      | cons a A2 =>
        rw [hA2] at hpref
        have hb : b = a := by
          have := hpref
          rw [List.cons_append] at this
          injection this with h1 h2
        have hpa : jsWhitespace a = false :=
          dropWhile_head_false jsWhitespace s.data a A2 (by rw [← hA, hA2])
        exact List.dropWhile_cons_of_neg (by simp [hb, hpa])
  rw [h1, List.reverse_reverse, hRfix]

theorem perm_sizeOf_eq {l1 l2 : List (String × JValue)} (h : l1.Perm l2) :
    sizeOf l1 = sizeOf l2 := by
  induction h with
  | nil => rfl
  | cons x _ ih => simp only [List.cons.sizeOf_spec]; omega
  | swap x y l => simp only [List.cons.sizeOf_spec]; omega
  | trans _ _ ih1 ih2 => omega

mutual

theorem normalizeJV_idem : ∀ v : JValue,
    normalizeForHashing (normalizeForHashing v) = normalizeForHashing v
  | .null => by simp [normalizeForHashing]
  | .undef => by simp [normalizeForHashing]
  | .bool b => by simp [normalizeForHashing]
  | .num n => by simp [normalizeForHashing]
  | .str s => by simp [normalizeForHashing, jsTrim_idem]
  | .arr xs => by
    simp only [normalizeForHashing]
    rw [normalizeList_idem xs]
  | .obj kvs => by
    have hvals : ∀ k w, (k, w) ∈ sortEntries kvs →
        normalizeForHashing (normalizeForHashing w) = normalizeForHashing w :=
      fun k w hw => normalizeJV_idem w
    simp only [normalizeForHashing]
    have hE : List.Sorted keyLe (normalizeEntries (sortEntries kvs)) :=
      normalizeEntries_sorted (sortEntries_sorted kvs)
    rw [sortEntries_eq_of_sorted hE]
    congr 1
    rw [normalizeEntries_eq (normalizeEntries (sortEntries kvs))]
    have hfil : (normalizeEntries (sortEntries kvs)).filter (fun e => !e.2.isUndef)
        = normalizeEntries (sortEntries kvs) := by
      rw [List.filter_eq_self]
      intro e he
      obtain ⟨w, hw1, hw2, hw3⟩ :=
        (normalizeEntries_mem (sortEntries kvs) e.1 e.2).mp (by simpa using he)
      simp [hw3, normalize_not_undef]
    rw [hfil]
    have hmap : ∀ (l : List (String × JValue)), (∀ e ∈ l, normalizeForHashing e.2 = e.2) →
        l.map (fun e => (e.1, normalizeForHashing e.2)) = l := by
      intro l hl
      induction l with
      | nil => rfl
      | cons e es ih =>
        simp only [List.map_cons, hl e (by simp),
          ih (fun a ha => hl a (by simp [ha]))]
    apply hmap
    intro e he
    obtain ⟨w, hw1, hw2, hw3⟩ :=
      (normalizeEntries_mem (sortEntries kvs) e.1 e.2).mp (by simpa using he)
    rw [hw3]
    exact hvals e.1 w hw1
termination_by v => sizeOf v
decreasing_by
  · simp
  · have hs := List.sizeOf_lt_of_mem hw
    have hp := perm_sizeOf_eq (sortEntries_perm kvs)
    simp only [Prod.mk.sizeOf_spec] at hs
    simp
    omega

theorem normalizeList_idem : ∀ xs : List JValue,
    normalizeList (normalizeList xs) = normalizeList xs
  | [] => by simp [normalizeList]
  | x :: xs => by
    simp only [normalizeList]
    rw [normalizeJV_idem x, normalizeList_idem xs]
termination_by xs => sizeOf xs
decreasing_by
  all_goals simp
  all_goals omega

end

/-- Counterexample for C6: a key whose value is explicitly undefined is
dropped by normalization (the output object is empty), not emitted with value
null as the claim states. -/
theorem normalize_object_cex :
    normalizeForHashing (.obj [("a", .undef)]) = .obj [] ∧
    JValue.obj [] ≠ JValue.obj [("a", JValue.null)] := by
  constructor
  · simp [normalizeForHashing, normalizeEntries, sortEntries, List.insertionSort,
      List.orderedInsert, JValue.isUndef]
  · simp

/-- C6 (amended): normalizeForHashing maps an object to an object whose keys
are sorted ascending and whose entries are exactly the input entries with
non-undefined values, each value recursively normalized (explicit null stays
as null, explicit undefined entries are dropped, absent keys never appear). -/
theorem normalize_object_amended (kvs : List (String × JValue)) :
    normalizeForHashing (.obj kvs) = .obj (normalizeEntries (sortEntries kvs)) ∧
    List.Sorted keyLe (normalizeEntries (sortEntries kvs)) ∧
    (∀ k v, (k, v) ∈ normalizeEntries (sortEntries kvs) ↔
      ∃ w, (k, w) ∈ kvs ∧ w.isUndef = false ∧ v = normalizeForHashing w) := by
  refine ⟨by simp [normalizeForHashing],
    normalizeEntries_sorted (sortEntries_sorted kvs), ?_⟩
  intro k v
  rw [normalizeEntries_mem]
  constructor
  · rintro ⟨w, hw1, hw2, hw3⟩
    exact ⟨w, (sortEntries_perm kvs).mem_iff.mp hw1, hw2, hw3⟩
  · rintro ⟨w, hw1, hw2, hw3⟩
    exact ⟨w, (sortEntries_perm kvs).mem_iff.mpr hw1, hw2, hw3⟩

/-- Witness for C6: an explicit null value survives normalization as null. -/
theorem normalize_object_amended_witness :
    ("a", JValue.null) ∈ normalizeEntries (sortEntries [("a", JValue.null)]) := by
  exact ((normalize_object_amended [("a", JValue.null)]).2.2 "a" JValue.null).mpr
    ⟨JValue.null, by simp, rfl, by simp [normalizeForHashing]⟩

theorem sortEntries_eq_of_perm {kvs kvs2 : List (String × JValue)}
    (hp : kvs.Perm kvs2) (hnd : (kvs.map Prod.fst).Nodup) :
    sortEntries kvs = sortEntries kvs2 := by
  haveI : IsAntisymm (String × JValue) (fun a b => strLt a.1 b.1 = true) :=
    ⟨fun a b h1 h2 => by
      simp only [strLt] at h1 h2
      have h3 := lexLt_asymm _ _ h1
      rw [h2] at h3
      simp at h3⟩
  have hstrict : ∀ l : List (String × JValue), (l.map Prod.fst).Nodup →
      List.Sorted keyLe l → List.Sorted (fun a b => strLt a.1 b.1 = true) l := by
    intro l hl hs
    have hpw : List.Pairwise (fun a b : String × JValue => a.1 ≠ b.1) l := by
      exact List.pairwise_map.mp hl
    refine (hs.and hpw).imp ?_
    rintro a b ⟨hab, hne⟩
    cases h : strLt a.1 b.1 with
    | true => rfl
    | false => exact absurd (strLt_eq_of_not h hab) hne
  have hnd2 : ((sortEntries kvs).map Prod.fst).Nodup := by
    have hp2 : ((sortEntries kvs).map Prod.fst).Perm (kvs.map Prod.fst) :=
      (sortEntries_perm kvs).map Prod.fst
    exact hp2.nodup_iff.mpr hnd
  have hnd3 : ((sortEntries kvs2).map Prod.fst).Nodup := by
    have hp2 : ((sortEntries kvs2).map Prod.fst).Perm (kvs.map Prod.fst) :=
      ((sortEntries_perm kvs2).map Prod.fst).trans (hp.map Prod.fst).symm
    exact hp2.nodup_iff.mpr hnd
  exact List.eq_of_perm_of_sorted
    ((sortEntries_perm kvs).trans (hp.trans (sortEntries_perm kvs2).symm))
    (hstrict _ hnd2 (sortEntries_sorted kvs))
    (hstrict _ hnd3 (sortEntries_sorted kvs2))

/-- C7: normalizeForHashing is idempotent; two objects that differ only in
entry order (with distinct keys) normalize identically, as do two strings that
differ only in leading or trailing whitespace; in particular the documented
two-key example holds. -/
theorem normalize_idempotent_claim :
    (∀ v, normalizeForHashing (normalizeForHashing v) = normalizeForHashing v) ∧
    (∀ kvs kvs2 : List (String × JValue), kvs.Perm kvs2 → (kvs.map Prod.fst).Nodup →
      normalizeForHashing (.obj kvs) = normalizeForHashing (.obj kvs2)) ∧
    (normalizeForHashing (.obj [("a", .num 1), ("b", .num 2)]) =
      normalizeForHashing (.obj [("b", .num 2), ("a", .num 1)])) ∧
    (normalizeForHashing (.str "  hello  ") = normalizeForHashing (.str "hello")) := by
  have hperm : ∀ kvs kvs2 : List (String × JValue), kvs.Perm kvs2 →
      (kvs.map Prod.fst).Nodup →
      normalizeForHashing (.obj kvs) = normalizeForHashing (.obj kvs2) := by
    intro kvs kvs2 hp hnd
    simp only [normalizeForHashing]
    rw [sortEntries_eq_of_perm hp hnd]
  refine ⟨normalizeJV_idem, hperm, ?_, ?_⟩
  · exact hperm _ _ (List.Perm.swap _ _ _).symm (by decide)
  · simp only [normalizeForHashing]
    congr 1

/-- Witness for C7 at a concrete two-entry permutation. -/
theorem normalize_idempotent_claim_witness :
    normalizeForHashing (.obj [("x", .num 3), ("y", .bool true)]) =
      normalizeForHashing (.obj [("y", .bool true), ("x", .num 3)]) := by
  exact normalize_idempotent_claim.2.1 _ _ (List.Perm.swap _ _ _).symm (by decide)
